import Mathlib

/-!
# Verification of the microfab-sim numeric core

Shallow embedding of the numeric physics engine of the microfab-sim
repository (Deal–Grove oxidation solver, dopant transport profiles,
anneal broadening by FFT convolution, junction-depth extraction and
profile combination), together with theorems settling the spec claims.

Python floating-point arithmetic is modelled by real arithmetic; numpy
arrays of length `L` are modelled as functions out of `ZMod L` (for the
FFT-based convolution operator, whose index arithmetic is circular) or
as functions out of `ℕ` restricted to indices `< L`.  The float `NaN`
sentinel returned by `junction_depth` is modelled as `Option.none`.
-/

namespace MicrofabSim

open Finset

/-- Embedding of `deal_grove_thickness` from `src/deal_grove.py`:
`A_nm = B / max(B_over_A, 1e-12)`, `disc = A_nm² + 4·B·t`,
result `(-A_nm + sqrt disc) / 2`. -/
noncomputable def deal_grove_thickness (B_nm2_per_min B_over_A_nm_per_min t_min : ℝ) : ℝ :=
  let A_nm := B_nm2_per_min / max B_over_A_nm_per_min 1e-12
  let disc := A_nm * A_nm + 4 * B_nm2_per_min * t_min
  (-A_nm + Real.sqrt disc) / 2.0

/-- The effective linear dimension `A` used by the solver. -/
noncomputable def dealGroveA (B_nm2_per_min B_over_A_nm_per_min : ℝ) : ℝ :=
  B_nm2_per_min / max B_over_A_nm_per_min 1e-12

/-- The error function `erf x = (2/√π) ∫ t in 0..x, exp (−t²)`, the
mathematical function computed by `scipy.special.erf` in `src/diffusion.py`. -/
noncomputable def erf (x : ℝ) : ℝ :=
  (2 / Real.sqrt Real.pi) * ∫ t in (0:ℝ)..x, Real.exp (-(t ^ 2))

/-- Embedding of `const_source_erfc` from `src/diffusion.py`:
`x_cm = x_um·1e-4`, `z = x_cm / (2·sqrt(D·t))`, result `Cs·0.5·(1 − erf z)`. -/
noncomputable def const_source_erfc (Cs D t_s x_um : ℝ) : ℝ :=
  let x_cm := x_um * 1e-4
  let z := x_cm / (2 * Real.sqrt (D * t_s))
  Cs * 0.5 * (1 - erf z)

/-- Embedding of `implant_gaussian` from `src/diffusion.py`:
`(dose / (sqrt(2π)·ΔR)) · exp(−0.5·((x−Rp)/ΔR)²) · 1e4`. -/
noncomputable def implant_gaussian (dose_cm2 Rp_um dR_um x_um : ℝ) : ℝ :=
  (dose_cm2 / (Real.sqrt (2 * Real.pi) * dR_um)) *
    Real.exp (-0.5 * ((x_um - Rp_um) / dR_um) ^ 2) * 1e4

/-- Embedding of the profile-combination step of `src/main.py`
(`B = np.minimum(1e21, NA_bg + B_imp_anneal)`): elementwise sum clamped to a
saturation ceiling. -/
def combineProfiles (ceiling : ℝ) (bg impl : ℕ → ℝ) : ℕ → ℝ :=
  fun i => min ceiling (bg i + impl i)

/-- Helper for `junction_depth`: first index `j ∈ [i, i + fuel)` (scanning in
increasing order) with `ND j ≤ NA j`, i.e. the head of `np.where(ND <= NA)[0]`
restricted to that window. -/
def firstCrossFrom {α : Type} [LinearOrder α] (NA ND : ℕ → α) : ℕ → ℕ → Option ℕ
  | _, 0 => none
  | i, fuel + 1 => if ND i ≤ NA i then some i else firstCrossFrom NA ND (i + 1) fuel

/-- Embedding of `junction_depth` from `src/diffusion.py` for arrays of common
length `L`: `idx = np.where(ND <= NA)[0]`; result `x_um[idx[0]]` if `idx` is
nonempty, else the NaN sentinel, modelled here as `Option.none`. -/
def junction_depth {α : Type} [LinearOrder α] (L : ℕ) (x_um NA ND : ℕ → α) : Option α :=
  Option.map x_um (firstCrossFrom NA ND 0 L)

/-- The unnormalized broadening kernel of `anneal_broaden` in
`src/diffusion.py`: `kern = exp(-0.5*(kx/sigma)**2)` with
`kx = (arange(L) - L//2)*dx`. -/
noncomputable def annealKernelRaw (L : ℕ) [NeZero L] (dx sigma : ℝ) (j : ZMod L) : ℝ :=
  Real.exp (-0.5 * ((((j.val : ℝ) - ((L / 2 : ℕ) : ℝ)) * dx / sigma) ^ 2))

/-- The normalized kernel: `kern /= (kern.sum()*dx)`. -/
noncomputable def annealKernel (L : ℕ) [NeZero L] (dx sigma : ℝ) (j : ZMod L) : ℝ :=
  annealKernelRaw L dx sigma j / ((∑ m : ZMod L, annealKernelRaw L dx sigma m) * dx)

/-- Embedding of `anneal_broaden` from `src/diffusion.py` for a length-`L`
profile: `dx = x_cm[1]-x_cm[0]` (with `x_cm = x_um*1e-4`),
`sigma = sqrt(2*D*t)`, and the result is
`np.real(ifft(fft(Cx)*fft(kern)))`, where `fft`/`ifft` follow numpy's
conventions, which are exactly those of `ZMod.dft` and its inverse. -/
noncomputable def anneal_broaden (L : ℕ) [NeZero L] (Cx : ZMod L → ℝ) (D t_s : ℝ)
    (x_um : ZMod L → ℝ) (n : ZMod L) : ℝ :=
  let dx := x_um 1 * 1e-4 - x_um 0 * 1e-4
  let sigma := Real.sqrt (2 * D * t_s)
  ((ZMod.dft.symm fun k =>
      ZMod.dft (fun j => (Cx j : ℂ)) k *
        ZMod.dft (fun j => (annealKernel L dx sigma j : ℂ)) k) n).re

/-- Total dopant mass of a sampled profile: Riemann sum times spacing. -/
noncomputable def profileMass (L : ℕ) [NeZero L] (f : ZMod L → ℝ) (dx : ℝ) : ℝ :=
  (∑ j : ZMod L, f j) * dx

lemma deal_grove_thickness_def (B BoA t : ℝ) :
    deal_grove_thickness B BoA t =
      (-(dealGroveA B BoA) + Real.sqrt (dealGroveA B BoA * dealGroveA B BoA + 4 * B * t)) / 2 := by
  unfold deal_grove_thickness dealGroveA
  norm_num

lemma dealGroveA_nonneg (B BoA : ℝ) (hB : 0 ≤ B) : 0 ≤ dealGroveA B BoA := by
  unfold dealGroveA
  apply div_nonneg hB
  have : (0:ℝ) < 1e-12 := by norm_num
  exact le_trans this.le (le_max_right _ _)

lemma deal_grove_disc_nonneg (B BoA t : ℝ) (hB : 0 ≤ B) (ht : 0 ≤ t) :
    0 ≤ dealGroveA B BoA * dealGroveA B BoA + 4 * B * t := by
  have h1 : 0 ≤ dealGroveA B BoA * dealGroveA B BoA := mul_self_nonneg _
  have h2 : 0 ≤ 4 * B * t := by positivity
  linarith

/-- C5 amended: the returned thickness satisfies `x² + A·x − B·t = 0` exactly,
with `A = B / max(B_over_A, 1e-12)` the solver's effective linear dimension. -/
theorem deal_grove_roundtrip (B BoA t : ℝ) (hB : 0 ≤ B) (ht : 0 ≤ t) :
    deal_grove_thickness B BoA t ^ 2 +
      dealGroveA B BoA * deal_grove_thickness B BoA t - B * t = 0 := by
  have hdisc := deal_grove_disc_nonneg B BoA t hB ht
  have hs : Real.sqrt (dealGroveA B BoA * dealGroveA B BoA + 4 * B * t) ^ 2 =
      dealGroveA B BoA * dealGroveA B BoA + 4 * B * t := Real.sq_sqrt hdisc
  rw [deal_grove_thickness_def]
  nlinarith [hs]

/-- C5 counterexample: at `B = 2`, `B_over_A = 1`, `t = 4` the solver returns
`x = 2`, and the residual of the claimed quadratic `x² + (B/A)·x − B·t`
(with `A` the solver's effective linear constant, so `B/A = max(B_over_A, ε) = 1`)
is `−2`, which is 25% of `B·t = 8` — far outside floating tolerance. -/
theorem deal_grove_roundtrip_claim_cex :
    deal_grove_thickness 2 1 4 ^ 2 +
      (2 / dealGroveA 2 1) * deal_grove_thickness 2 1 4 - 2 * 4 = -2 := by
  have hA : dealGroveA 2 1 = 2 := by unfold dealGroveA; norm_num
  have hx : deal_grove_thickness 2 1 4 = 2 := by
    rw [deal_grove_thickness_def, hA]
    have h36 : (2:ℝ) * 2 + 4 * 2 * 4 = 36 := by norm_num
    rw [h36, show (36:ℝ) = 6 ^ 2 by norm_num, Real.sqrt_sq (by norm_num : (0:ℝ) ≤ 6)]
    norm_num
  rw [hx, hA]; norm_num

/-- C5 witness: the amended round-trip identity holds at `B = 2`, `B_over_A = 1`,
`t = 4`. -/
theorem deal_grove_roundtrip_witness :
    deal_grove_thickness 2 1 4 ^ 2 +
      dealGroveA 2 1 * deal_grove_thickness 2 1 4 - 2 * 4 = 0 :=
  deal_grove_roundtrip 2 1 4 (by norm_num) (by norm_num)

/-- C6: for non-negative inputs the solved thickness is non-negative, it is
exactly `0` at `t = 0`, and the degenerate input `B = 0` also yields exactly `0`
(the solver is total: no division by zero thanks to the `max` clamp). -/
theorem deal_grove_nonneg_and_zero (B BoA t : ℝ)
    (hB : 0 ≤ B) (hBoA : 0 ≤ BoA) (ht : 0 ≤ t) :
    0 ≤ deal_grove_thickness B BoA t ∧ deal_grove_thickness B BoA 0 = 0 ∧
      deal_grove_thickness 0 BoA t = 0 := by
  have hA := dealGroveA_nonneg B BoA hB
  refine ⟨?_, ?_, ?_⟩
  · rw [deal_grove_thickness_def]
    have h1 : Real.sqrt (dealGroveA B BoA * dealGroveA B BoA) = dealGroveA B BoA :=
      Real.sqrt_mul_self hA
    have h2 : Real.sqrt (dealGroveA B BoA * dealGroveA B BoA) ≤
        Real.sqrt (dealGroveA B BoA * dealGroveA B BoA + 4 * B * t) :=
      Real.sqrt_le_sqrt (by nlinarith)
    rw [h1] at h2
    linarith
  · rw [deal_grove_thickness_def]
    rw [show dealGroveA B BoA * dealGroveA B BoA + 4 * B * 0 =
      dealGroveA B BoA * dealGroveA B BoA by ring]
    rw [Real.sqrt_mul_self hA]
    ring
  · have hA0 : dealGroveA 0 BoA = 0 := by unfold dealGroveA; exact zero_div _
    rw [deal_grove_thickness_def, hA0]
    rw [show (0:ℝ) * 0 + 4 * 0 * t = 0 by ring, Real.sqrt_zero]
    ring

/-- C6 witness at `B = 3`, `B_over_A = 2`, `t = 5`. -/
theorem deal_grove_nonneg_and_zero_witness :
    0 ≤ deal_grove_thickness 3 2 5 ∧ deal_grove_thickness 3 2 0 = 0 ∧
      deal_grove_thickness 0 2 5 = 0 :=
  deal_grove_nonneg_and_zero 3 2 5 (by norm_num) (by norm_num) (by norm_num)

/-- C7: for fixed non-negative rate constants the thickness is monotonically
non-decreasing in the elapsed time. -/
theorem deal_grove_mono_in_t (B BoA t₁ t₂ : ℝ)
    (hB : 0 ≤ B) (hBoA : 0 ≤ BoA) (ht₁ : 0 ≤ t₁) (h12 : t₁ ≤ t₂) :
    deal_grove_thickness B BoA t₁ ≤ deal_grove_thickness B BoA t₂ := by
  rw [deal_grove_thickness_def, deal_grove_thickness_def]
  have hd : dealGroveA B BoA * dealGroveA B BoA + 4 * B * t₁ ≤
      dealGroveA B BoA * dealGroveA B BoA + 4 * B * t₂ := by nlinarith
  have := Real.sqrt_le_sqrt hd
  linarith

/-- C7 witness at `B = 5`, `B_over_A = 3`, `t₁ = 1`, `t₂ = 7`. -/
theorem deal_grove_mono_in_t_witness :
    deal_grove_thickness 5 3 1 ≤ deal_grove_thickness 5 3 7 :=
  deal_grove_mono_in_t 5 3 1 7 (by norm_num) (by norm_num) (by norm_num) (by norm_num)

lemma erf_zero : erf 0 = 0 := by
  unfold erf
  rw [intervalIntegral.integral_same, mul_zero]

/-- C1: at depth `x = 0` the constant-source profile evaluates to `Cs/2`, not
`Cs` — the code multiplies the complementary error function by an extra `0.5`,
halving the surface concentration the spec promises. -/
theorem const_source_erfc_at_zero (Cs D t : ℝ) :
    const_source_erfc Cs D t 0 = Cs / 2 := by
  unfold const_source_erfc
  norm_num [erf_zero]
  ring

/-- C8: the implant Gaussian attains its maximum at `x = Rp` (so on any sampled
axis the peak sample is within one spacing of `Rp`), and the peak value is
exactly `dose/(sqrt(2π)·ΔR)` times the documented `1e4` unit factor. -/
theorem implant_gaussian_peak (dose Rp dR : ℝ) (hdose : 0 ≤ dose) (hdR : 0 < dR) :
    implant_gaussian dose Rp dR Rp =
      dose / (Real.sqrt (2 * Real.pi) * dR) * 1e4 ∧
    ∀ x, implant_gaussian dose Rp dR x ≤ implant_gaussian dose Rp dR Rp := by
  have hpeak : implant_gaussian dose Rp dR Rp =
      dose / (Real.sqrt (2 * Real.pi) * dR) * 1e4 := by
    unfold implant_gaussian
    rw [sub_self, zero_div]
    norm_num
  refine ⟨hpeak, fun x => ?_⟩
  rw [hpeak]
  have hc : 0 ≤ dose / (Real.sqrt (2 * Real.pi) * dR) := by
    apply div_nonneg hdose
    have : 0 < Real.sqrt (2 * Real.pi) := Real.sqrt_pos.mpr (by positivity)
    positivity
  have hexp : Real.exp (-0.5 * ((x - Rp) / dR) ^ 2) ≤ 1 := by
    rw [show (1:ℝ) = Real.exp 0 by rw [Real.exp_zero]]
    apply Real.exp_le_exp.mpr
    nlinarith [sq_nonneg ((x - Rp) / dR)]
  unfold implant_gaussian
  calc dose / (Real.sqrt (2 * Real.pi) * dR) *
        Real.exp (-0.5 * ((x - Rp) / dR) ^ 2) * 1e4
      ≤ dose / (Real.sqrt (2 * Real.pi) * dR) * 1 * 1e4 := by
        apply mul_le_mul_of_nonneg_right _ (by norm_num)
        exact mul_le_mul_of_nonneg_left hexp hc
    _ = dose / (Real.sqrt (2 * Real.pi) * dR) * 1e4 := by ring

/-- C8 witness: at `dose = 1`, `Rp = 0`, `ΔR = 1`, the value at `x = 3` does not
exceed the peak at `x = Rp = 0`. -/
theorem implant_gaussian_peak_witness :
    implant_gaussian 1 0 1 3 ≤ implant_gaussian 1 0 1 0 :=
  (implant_gaussian_peak 1 0 1 (by norm_num) (by norm_num)).2 3

/-- C9: at every index the combined profile is `min(ceiling, bg + impl)`; it
never exceeds the ceiling, and where the sum is within the ceiling it equals
the sum. -/
theorem combineProfiles_spec (ceiling : ℝ) (bg impl : ℕ → ℝ) (i : ℕ) :
    combineProfiles ceiling bg impl i = min ceiling (bg i + impl i) ∧
    combineProfiles ceiling bg impl i ≤ ceiling ∧
    (bg i + impl i ≤ ceiling → combineProfiles ceiling bg impl i = bg i + impl i) :=
  ⟨rfl, min_le_left _ _, fun h => min_eq_right h⟩

/-- C9 witness: with ceiling `5`, background `1` and implant `2`, the combined
value at index `0` is the unclamped sum `1 + 2`. -/
theorem combineProfiles_spec_witness :
    combineProfiles 5 (fun _ => 1) (fun _ => 2) 0 = 1 + 2 :=
  (combineProfiles_spec 5 (fun _ => 1) (fun _ => 2) 0).2.2 (by norm_num)

lemma firstCrossFrom_eq_none_iff {α : Type} [LinearOrder α] (NA ND : ℕ → α)
    (i fuel : ℕ) :
    firstCrossFrom NA ND i fuel = none ↔
      ∀ j, i ≤ j → j < i + fuel → ¬ ND j ≤ NA j := by
  induction fuel generalizing i with
  | zero =>
    simp only [firstCrossFrom]
    constructor
    · intro _ j h1 h2
      omega
    · intro _
      trivial
  | succ fuel ih =>
    simp only [firstCrossFrom]
    by_cases h : ND i ≤ NA i
    · simp only [h, if_pos]
      constructor
      · intro hc
        exact absurd hc (by simp)
      · intro hall
        exact absurd h (hall i le_rfl (by omega))
    · simp only [h, if_neg, not_false_iff, ih]
      constructor
      · intro hall j h1 h2
        rcases eq_or_lt_of_le h1 with rfl | hlt
        · exact h
        · exact hall j hlt (by omega)
      · intro hall j h1 h2
        exact hall j (by omega) (by omega)

lemma firstCrossFrom_eq_some_iff {α : Type} [LinearOrder α] (NA ND : ℕ → α)
    (i fuel k : ℕ) :
    firstCrossFrom NA ND i fuel = some k ↔
      i ≤ k ∧ k < i + fuel ∧ ND k ≤ NA k ∧
        ∀ j, i ≤ j → j < k → ¬ ND j ≤ NA j := by
  induction fuel generalizing i with
  | zero =>
    simp only [firstCrossFrom]
    constructor
    · intro hc
      exact absurd hc (by simp)
    · rintro ⟨h1, h2, -, -⟩
      omega
  | succ fuel ih =>
    simp only [firstCrossFrom]
    by_cases h : ND i ≤ NA i
    · simp only [h, if_pos]
      constructor
      · rintro hk
        rw [Option.some_inj] at hk
        subst hk
        exact ⟨le_rfl, by omega, h, fun j h1 h2 => by omega⟩
      · rintro ⟨h1, h2, h3, h4⟩
        rcases eq_or_lt_of_le h1 with rfl | hlt
        · rfl
        · exact absurd h (h4 i le_rfl hlt)
    · simp only [h, if_neg, not_false_iff, ih]
      constructor
      · rintro ⟨h1, h2, h3, h4⟩
        refine ⟨by omega, by omega, h3, fun j hj1 hj2 => ?_⟩
        rcases eq_or_lt_of_le hj1 with rfl | hlt
        · exact h
        · exact h4 j hlt hj2
      · rintro ⟨h1, h2, h3, h4⟩
        have hik : i < k := by
          rcases eq_or_lt_of_le h1 with rfl | hlt
          · exact absurd h3 h
          · exact hlt
        exact ⟨by omega, by omega, h3, fun j hj1 hj2 => h4 j (by omega) hj2⟩

/-- C4: `junction_depth` returns the depth at the *first* index (in
increasing-depth order) where `ND ≤ NA` — equality counts as a crossing and
every earlier index has `NA < ND` — and returns the `none` sentinel (not an
exception) when no index crosses. -/
theorem junction_depth_first_match {α : Type} [LinearOrder α] (L : ℕ)
    (x_um NA ND : ℕ → α) :
    ((∃ i, i < L ∧ ND i ≤ NA i) →
      ∃ i, i < L ∧ ND i ≤ NA i ∧ (∀ j, j < i → NA j < ND j) ∧
        junction_depth L x_um NA ND = some (x_um i)) ∧
    ((∀ i, i < L → ¬ ND i ≤ NA i) → junction_depth L x_um NA ND = none) := by
  constructor
  · rintro ⟨i, hi, hle⟩
    rcases hk : firstCrossFrom NA ND 0 L with - | k
    · rw [firstCrossFrom_eq_none_iff] at hk
      exact absurd hle (hk i (Nat.zero_le i) (by omega))
    · rw [firstCrossFrom_eq_some_iff] at hk
      rcases hk with ⟨-, hkL, hkle, hkfirst⟩
      refine ⟨k, by omega, hkle, fun j hj => ?_, ?_⟩
      · exact lt_of_not_le (hkfirst j (Nat.zero_le j) hj)
      · unfold junction_depth
        rw [show firstCrossFrom NA ND 0 L = some k by
          rw [firstCrossFrom_eq_some_iff]; exact ⟨Nat.zero_le k, by omega, hkle, hkfirst⟩]
        rfl
  · intro hall
    unfold junction_depth
    rw [show firstCrossFrom NA ND 0 L = none by
      rw [firstCrossFrom_eq_none_iff]; exact fun j _ hj => hall j (by omega)]
    rfl

/-- C4 witness: with constant profiles `NA = 1`, `ND = 2` over three samples
there is no crossing, and `junction_depth` returns the `none` sentinel. -/
theorem junction_depth_first_match_witness :
    junction_depth 3 (fun i => (i : ℚ)) (fun _ => (1 : ℚ)) (fun _ => (2 : ℚ)) = none :=
  (junction_depth_first_match 3 (fun i => (i : ℚ)) (fun _ => (1 : ℚ))
    (fun _ => (2 : ℚ))).2 (fun i _ => by norm_num)

/-- C10: `junction_depth` is total on equal-length inputs: it either returns
`some` of a depth-axis sample at a crossing index, or the `none` sentinel
(modelling float NaN) exactly when no index crosses — it never raises. -/
theorem junction_depth_total {α : Type} [LinearOrder α] (L : ℕ)
    (x_um NA ND : ℕ → α) :
    (∃ i, i < L ∧ ND i ≤ NA i ∧ junction_depth L x_um NA ND = some (x_um i)) ∨
    (junction_depth L x_um NA ND = none ∧ ∀ i, i < L → ¬ ND i ≤ NA i) := by
  rcases hk : firstCrossFrom NA ND 0 L with - | k
  · right
    rw [firstCrossFrom_eq_none_iff] at hk
    constructor
    · unfold junction_depth
      rw [show firstCrossFrom NA ND 0 L = none by
        rw [firstCrossFrom_eq_none_iff]; exact hk]
      rfl
    · exact fun i hi => hk i (Nat.zero_le i) (by omega)
  · left
    rw [firstCrossFrom_eq_some_iff] at hk
    rcases hk with ⟨-, hkL, hkle, hkfirst⟩
    refine ⟨k, by omega, hkle, ?_⟩
    unfold junction_depth
    rw [show firstCrossFrom NA ND 0 L = some k by
      rw [firstCrossFrom_eq_some_iff]; exact ⟨Nat.zero_le k, by omega, hkle, hkfirst⟩]
    rfl

/-- C10 witness: with a crossing present (equal constant profiles, so equality
counts), the extractor returns `some` depth-axis sample, not the sentinel. -/
theorem junction_depth_total_witness :
    junction_depth 3 (fun _ => (0 : ℚ)) (fun _ => (1 : ℚ)) (fun _ => (1 : ℚ)) =
      some 0 := by
  rcases junction_depth_total 3 (fun _ => (0 : ℚ)) (fun _ => (1 : ℚ))
      (fun _ => (1 : ℚ)) with ⟨i, -, -, heq⟩ | ⟨-, hnone⟩
  · exact heq
  · exact absurd le_rfl (hnone 0 (by norm_num))

/-- Discrete convolution theorem, numpy convention: pointwise products of DFTs
transform back to the circular convolution. -/
lemma dft_mul_eq_dft_circConv {L : ℕ} [NeZero L] (f g : ZMod L → ℂ) (k : ZMod L) :
    ZMod.dft f k * ZMod.dft g k =
      ZMod.dft (fun n => ∑ m : ZMod L, f m * g (n - m)) k := by
  rw [ZMod.dft_apply, ZMod.dft_apply, ZMod.dft_apply]
  calc (∑ j : ZMod L, ZMod.stdAddChar (-(j * k)) • f j) *
        ∑ m : ZMod L, ZMod.stdAddChar (-(m * k)) • g m
      = ∑ m : ZMod L, ∑ p : ZMod L,
          (ZMod.stdAddChar (-(m * k)) • f m) * (ZMod.stdAddChar (-(p * k)) • g p) :=
        Finset.sum_mul_sum _ _ _ _
    _ = ∑ m : ZMod L, ∑ p : ZMod L,
          ZMod.stdAddChar (-((m + p) * k)) • (f m * g p) := by
        refine Finset.sum_congr rfl fun m _ => Finset.sum_congr rfl fun p _ => ?_
        have hχ : ZMod.stdAddChar (-((m + p) * k)) =
            ZMod.stdAddChar (-(m * k)) * ZMod.stdAddChar (-(p * k)) := by
          rw [← AddChar.map_add_eq_mul]
          congr 1
          ring
        rw [hχ]
        simp only [smul_eq_mul]
        ring
    _ = ∑ m : ZMod L, ∑ n : ZMod L,
          ZMod.stdAddChar (-(n * k)) • (f m * g (n - m)) := by
        refine Finset.sum_congr rfl fun m _ => ?_
        refine Fintype.sum_equiv (Equiv.addLeft m) _ _ fun p => ?_
        simp only [Equiv.coe_addLeft, add_sub_cancel_left]
    _ = ∑ n : ZMod L, ZMod.stdAddChar (-(n * k)) • ∑ m : ZMod L, f m * g (n - m) := by
        rw [Finset.sum_comm]
        exact Finset.sum_congr rfl fun n _ => (Finset.smul_sum).symm

/-- The operator `anneal_broaden` computes the circular convolution of the
profile with the normalized sampled Gaussian kernel. -/
lemma anneal_broaden_eq_circConv {L : ℕ} [NeZero L] (Cx : ZMod L → ℝ) (D t_s : ℝ)
    (x_um : ZMod L → ℝ) (n : ZMod L) :
    anneal_broaden L Cx D t_s x_um n =
      ∑ m : ZMod L, Cx m *
        annealKernel L (x_um 1 * 1e-4 - x_um 0 * 1e-4)
          (Real.sqrt (2 * D * t_s)) (n - m) := by
  unfold anneal_broaden
  show ((ZMod.dft.symm fun k =>
      ZMod.dft (fun j => (Cx j : ℂ)) k *
        ZMod.dft (fun j =>
          (annealKernel L (x_um 1 * 1e-4 - x_um 0 * 1e-4)
            (Real.sqrt (2 * D * t_s)) j : ℂ)) k) n).re = _
  rw [show (fun k => ZMod.dft (fun j => (Cx j : ℂ)) k *
        ZMod.dft (fun j =>
          (annealKernel L (x_um 1 * 1e-4 - x_um 0 * 1e-4)
            (Real.sqrt (2 * D * t_s)) j : ℂ)) k) =
      ZMod.dft (fun n => ∑ m : ZMod L, (Cx m : ℂ) *
        (annealKernel L (x_um 1 * 1e-4 - x_um 0 * 1e-4)
          (Real.sqrt (2 * D * t_s)) (n - m) : ℂ)) from
    funext fun k => dft_mul_eq_dft_circConv _ _ k]
  rw [LinearEquiv.symm_apply_apply]
  rw [show (∑ m : ZMod L, (Cx m : ℂ) *
      (annealKernel L (x_um 1 * 1e-4 - x_um 0 * 1e-4)
        (Real.sqrt (2 * D * t_s)) (n - m) : ℂ)) =
    ((∑ m : ZMod L, Cx m *
      annealKernel L (x_um 1 * 1e-4 - x_um 0 * 1e-4)
        (Real.sqrt (2 * D * t_s)) (n - m) : ℝ) : ℂ) by push_cast; rfl]
  exact Complex.ofReal_re _

lemma sum_annealKernelRaw_pos (L : ℕ) [NeZero L] (dx sigma : ℝ) :
    0 < ∑ m : ZMod L, annealKernelRaw L dx sigma m := by
  have : Nonempty (ZMod L) := ⟨0⟩
  exact Finset.sum_pos (fun m _ => Real.exp_pos _) Finset.univ_nonempty

/-- The normalized kernel sums to `1/dx`, not to `1`. -/
lemma sum_annealKernel (L : ℕ) [NeZero L] (dx sigma : ℝ) (hdx : dx ≠ 0) :
    ∑ j : ZMod L, annealKernel L dx sigma j = 1 / dx := by
  unfold annealKernel
  rw [← Finset.sum_div]
  have hS := sum_annealKernelRaw_pos L dx sigma
  field_simp

/-- C2: exact mass law of the code's broadening operator.  The output's
integral (sum times spacing) equals the input's integral *divided by `dx`*:
the kernel is normalized to unit area (sum `1/dx`) but the transform-domain
product computes a plain circular convolution, so total mass is scaled by
`1/dx` instead of being preserved. -/
theorem anneal_broaden_mass_scaled (L : ℕ) [NeZero L] (Cx : ZMod L → ℝ)
    (D t_s : ℝ) (x_um : ZMod L → ℝ)
    (hdx : x_um 1 * 1e-4 - x_um 0 * 1e-4 ≠ 0) :
    profileMass L (anneal_broaden L Cx D t_s x_um) (x_um 1 * 1e-4 - x_um 0 * 1e-4) =
      profileMass L Cx (x_um 1 * 1e-4 - x_um 0 * 1e-4) /
        (x_um 1 * 1e-4 - x_um 0 * 1e-4) := by
  unfold profileMass
  have hconv : ∀ n, anneal_broaden L Cx D t_s x_um n =
      ∑ m : ZMod L, Cx m *
        annealKernel L (x_um 1 * 1e-4 - x_um 0 * 1e-4)
          (Real.sqrt (2 * D * t_s)) (n - m) :=
    anneal_broaden_eq_circConv Cx D t_s x_um
  rw [Finset.sum_congr rfl fun n _ => hconv n]
  rw [Finset.sum_comm]
  have hinner : ∀ m : ZMod L,
      (∑ n : ZMod L, Cx m *
        annealKernel L (x_um 1 * 1e-4 - x_um 0 * 1e-4)
          (Real.sqrt (2 * D * t_s)) (n - m)) =
      Cx m * (1 / (x_um 1 * 1e-4 - x_um 0 * 1e-4)) := by
    intro m
    rw [← Finset.mul_sum]
    congr 1
    rw [← sum_annealKernel L (x_um 1 * 1e-4 - x_um 0 * 1e-4)
      (Real.sqrt (2 * D * t_s)) hdx]
    exact Fintype.sum_equiv (Equiv.subRight m) _ _ fun n => by
      simp only [Equiv.subRight_apply]
  rw [Finset.sum_congr rfl fun m _ => hinner m, ← Finset.sum_mul]
  field_simp

/-- C2 witness: on a two-sample axis with spacing `1e-4` cm and unit profile,
the exact mass law holds. -/
theorem anneal_broaden_mass_scaled_witness :
    profileMass 2 (anneal_broaden 2 (fun _ => 1) 1 1 (fun i => (i.val : ℝ)))
        ((fun i : ZMod 2 => (i.val : ℝ)) 1 * 1e-4 - (fun i : ZMod 2 => (i.val : ℝ)) 0 * 1e-4) =
      profileMass 2 (fun _ => 1)
          ((fun i : ZMod 2 => (i.val : ℝ)) 1 * 1e-4 - (fun i : ZMod 2 => (i.val : ℝ)) 0 * 1e-4) /
        ((fun i : ZMod 2 => (i.val : ℝ)) 1 * 1e-4 - (fun i : ZMod 2 => (i.val : ℝ)) 0 * 1e-4) :=
  anneal_broaden_mass_scaled 2 (fun _ => 1) 1 1 (fun i => (i.val : ℝ)) (by
    show ((1 : ZMod 2).val : ℝ) * 1e-4 - ((0 : ZMod 2).val : ℝ) * 1e-4 ≠ 0
    rw [show (1 : ZMod 2).val = 1 from rfl, show (0 : ZMod 2).val = 0 from rfl]
    norm_num)

lemma annealKernelRaw_at_center (L : ℕ) [NeZero L] (dx sigma : ℝ) :
    annealKernelRaw L dx sigma ((L / 2 : ℕ) : ZMod L) = 1 := by
  unfold annealKernelRaw
  rw [ZMod.val_natCast_of_lt
    (Nat.div_lt_self (Nat.pos_of_ne_zero (NeZero.ne L)) one_lt_two)]
  simp

lemma annealKernelRaw_lt_center (L : ℕ) [NeZero L] (dx sigma : ℝ)
    (hdx : dx ≠ 0) (hσ : sigma ≠ 0) (i : ZMod L)
    (hi : i ≠ ((L / 2 : ℕ) : ZMod L)) :
    annealKernelRaw L dx sigma i < 1 := by
  unfold annealKernelRaw
  rw [Real.exp_lt_one_iff]
  have hval : i.val ≠ L / 2 := by
    intro h
    apply hi
    rw [← h, ZMod.natCast_zmod_val]
  have hnum : ((i.val : ℝ)) - ((L / 2 : ℕ) : ℝ) ≠ 0 := by
    intro h
    exact hval (by exact_mod_cast sub_eq_zero.mp h)
  have hz : ((i.val : ℝ) - ((L / 2 : ℕ) : ℝ)) * dx / sigma ≠ 0 :=
    div_ne_zero (mul_ne_zero hnum hdx) hσ
  have h2 : (((i.val : ℝ) - ((L / 2 : ℕ) : ℝ)) * dx / sigma) ^ 2 ≠ 0 :=
    pow_ne_zero 2 hz
  have h3 : 0 < (((i.val : ℝ) - ((L / 2 : ℕ) : ℝ)) * dx / sigma) ^ 2 :=
    lt_of_le_of_ne (sq_nonneg _) (Ne.symm h2)
  linarith

lemma annealKernel_strict_max (L : ℕ) [NeZero L] (dx sigma : ℝ)
    (hdx : 0 < dx) (hσ : 0 < sigma) (i : ZMod L)
    (hi : i ≠ ((L / 2 : ℕ) : ZMod L)) :
    annealKernel L dx sigma i < annealKernel L dx sigma ((L / 2 : ℕ) : ZMod L) := by
  unfold annealKernel
  have hden : 0 < (∑ m : ZMod L, annealKernelRaw L dx sigma m) * dx :=
    mul_pos (sum_annealKernelRaw_pos L dx sigma) hdx
  rw [div_lt_div_iff_of_pos_right hden, annealKernelRaw_at_center]
  exact annealKernelRaw_lt_center L dx sigma hdx.ne' hσ.ne' i hi

/-- C3: the code broadens by *circular* convolution with a Gaussian kernel
whose unique maximum sits at index `L//2`; consequently a unit impulse at
index `j` comes out with its maximum at index `(j + L//2) mod L` — displaced
by half the domain instead of staying at `j`. -/
theorem anneal_broaden_impulse_displaced (L : ℕ) [NeZero L] (D t_s : ℝ)
    (x_um : ZMod L → ℝ) (j : ZMod L) (hL : 2 ≤ L)
    (hdx : 0 < x_um 1 * 1e-4 - x_um 0 * 1e-4)
    (hσ : 0 < Real.sqrt (2 * D * t_s)) :
    (∀ (Cx : ZMod L → ℝ) (n : ZMod L),
      anneal_broaden L Cx D t_s x_um n =
        ∑ m : ZMod L, Cx m *
          annealKernel L (x_um 1 * 1e-4 - x_um 0 * 1e-4)
            (Real.sqrt (2 * D * t_s)) (n - m)) ∧
    (∀ i : ZMod L, i ≠ ((L / 2 : ℕ) : ZMod L) →
      annealKernel L (x_um 1 * 1e-4 - x_um 0 * 1e-4)
          (Real.sqrt (2 * D * t_s)) i <
        annealKernel L (x_um 1 * 1e-4 - x_um 0 * 1e-4)
          (Real.sqrt (2 * D * t_s)) ((L / 2 : ℕ) : ZMod L)) ∧
    (∀ n : ZMod L, n ≠ j + ((L / 2 : ℕ) : ZMod L) →
      anneal_broaden L (fun i => if i = j then 1 else 0) D t_s x_um n <
        anneal_broaden L (fun i => if i = j then 1 else 0) D t_s x_um
          (j + ((L / 2 : ℕ) : ZMod L))) := by
  have himp : ∀ n : ZMod L,
      anneal_broaden L (fun i => if i = j then 1 else 0) D t_s x_um n =
        annealKernel L (x_um 1 * 1e-4 - x_um 0 * 1e-4)
          (Real.sqrt (2 * D * t_s)) (n - j) := by
    intro n
    rw [anneal_broaden_eq_circConv]
    rw [Finset.sum_eq_single j
      (fun m _ hm => by simp [hm]) (fun h => absurd (Finset.mem_univ j) h)]
    simp
  refine ⟨fun Cx n => anneal_broaden_eq_circConv Cx D t_s x_um n,
    fun i hi => annealKernel_strict_max L _ _ hdx hσ i hi,
    fun n hn => ?_⟩
  rw [himp n, himp (j + ((L / 2 : ℕ) : ZMod L)), add_sub_cancel_left]
  apply annealKernel_strict_max L _ _ hdx hσ
  intro h
  exact hn ((sub_eq_iff_eq_add.mp h).trans (add_comm _ _))

/-- C3 witness: for `L = 2`, `D = 1`, `t = 1/2`, depth axis `(0, 1)` μm and a
unit impulse at index `0`, the broadened output at index `0` is strictly below
the output at the displaced index `0 + 2//2 = 1`. -/
theorem anneal_broaden_impulse_displaced_witness :
    anneal_broaden 2 (fun i => if i = 0 then 1 else 0) 1 (1/2)
        (fun i => (i.val : ℝ)) 0 <
      anneal_broaden 2 (fun i => if i = 0 then 1 else 0) 1 (1/2)
        (fun i => (i.val : ℝ)) (0 + ((2 / 2 : ℕ) : ZMod 2)) :=
  (anneal_broaden_impulse_displaced 2 1 (1/2) (fun i => (i.val : ℝ)) 0
    (by norm_num)
    (by
      show (0:ℝ) < ((1 : ZMod 2).val : ℝ) * 1e-4 - ((0 : ZMod 2).val : ℝ) * 1e-4
      rw [show (1 : ZMod 2).val = 1 from rfl, show (0 : ZMod 2).val = 0 from rfl]
      norm_num)
    (by
      rw [show (2:ℝ) * 1 * (1/2) = 1 by norm_num, Real.sqrt_one]
      norm_num)).2.2 0
    (by
      intro h
      have : ((2 / 2 : ℕ) : ZMod 2) = 1 := by norm_num
      rw [this] at h
      exact absurd h.symm one_ne_zero)

end MicrofabSim
